import Mathlib

/-!
Verification of the tree-diagram builder of `src/components/tree.py`
(class `Tree`): the attribute builder (`__init__`, `__add_child_edges`,
and the edge-building loop of `get_figure`), the coordinate transform of
`get_figure`, and — modelled from the specification, since the layout
itself is delegated to the external igraph library — the tidy-tree
layout solver and its structural validity check.

Conventions of the embedding:
* Python lists of strings become `List String`; Python list subscript
  assignment `l[i] = v` (which accepts negative indices counting from the
  end and raises `IndexError` out of range) becomes `pySet`, returning
  `Option`.
* Python dict access `COLORS[key]` (raising `KeyError` when absent)
  becomes an `Option`-valued palette lookup.
* A run that raises becomes `none`; a completed run becomes `some` of the
  final state.
-/

namespace CodeNNVis

/-- Modelled from the spec: the palette `DIAGRAM_COLORS` lives in the
repository's `constant.py`, which is not under `src/`.  Per §6 of the
spec it maps, at minimum, the category tags `require`, `variable`,
`function`, `interface` and `other`, plus the `plot-line` tint used for
edge lines, to pairwise distinct colors.  Unknown keys fail like a
Python `KeyError`. -/
def DIAGRAM_COLORS : String → Option String
  | "require" => some "require-tint"
  | "variable" => some "variable-tint"
  | "function" => some "function-tint"
  | "interface" => some "interface-tint"
  | "other" => some "other-tint"
  | "plot-line" => some "plot-line-tint"
  | _ => none

/-- Effective position of Python list index `i` in a list of length
`len`: negative indices count from the end, anything out of
`[-len, len-1]` raises `IndexError` (`none`). -/
def pyPos (len : Nat) (i : Int) : Option Nat :=
  let j : Int := if i < 0 then i + len else i
  if 0 ≤ j ∧ j < len then some j.toNat else none

/-- Python list subscript assignment `l[i] = v`. -/
def pySet (l : List String) (i : Int) (v : String) : Option (List String) :=
  (pyPos l.length i).map fun k => l.set k v

/-- Total variant of `pySet` used for characterisation lemmas: an
out-of-range write leaves the list unchanged. -/
def pySetD (l : List String) (i : Int) (v : String) : List String :=
  match pyPos l.length i with
  | some k => l.set k v
  | none => l

/-- The node label `'({}, {})'.format(master_index, container)` of
`tree.py` lines 100-101 and 131-132. -/
def nodeLabel (i : Int) (c : String) : String :=
  "(" ++ toString i ++ ", " ++ c ++ ")"

/-- A node of the pre-processed JSON data: its `master_index`, its
`container` tag, and — when the `children` key is present — its list of
child nodes. -/
inductive JNode where
  | mk (master_index : Int) (container : String) (children : Option (List JNode))

def JNode.master_index : JNode → Int
  | .mk i _ _ => i

def JNode.container : JNode → String
  | .mk _ c _ => c

def JNode.children : JNode → Option (List JNode)
  | .mk _ _ ch => ch

/-- The pre-processed JSON data: `nodes_count` and the top-level nodes. -/
structure JData where
  nodes_count : Nat
  nodes : List JNode

/-- The builder state: the attributes `edges`, `colors` and `text` of a
`Tree` instance. -/
structure BState where
  edges : List (Int × Int)
  colors : List String
  text : List String
deriving DecidableEq

/-- Attribute initialisation of `Tree.__init__` (tree.py lines 77-83):
no edges, `colors = [COLORS['plot-line']] + [''] * nodes_count`, and
`text = ['root'] + [''] * nodes_count`. -/
def initState (n : Nat) : BState :=
  { edges := []
    colors := (DIAGRAM_COLORS "plot-line").getD "" :: List.replicate n ""
    text := "root" :: List.replicate n "" }

/-- One loop-body step shared by `Tree.__add_child_edges` (tree.py lines
97-101) and the top-level loop of `get_figure` (lines 128-132): append
the edge `(parent, child)`, then set the child's color from the palette
and its text label, each write addressed by the child's `master_index`. -/
def visitNode (st : BState) (p : Int) (ci : Int) (cc : String) :
    Option BState := do
  let edges' := st.edges ++ [(p, ci)]
  let cv ← DIAGRAM_COLORS cc
  let colors' ← pySet st.colors ci cv
  let text' ← pySet st.text ci (nodeLabel ci cc)
  pure { edges := edges', colors := colors', text := text' }

/-- The recursive traversal of `Tree.__add_child_edges` (tree.py lines
85-104): for each child of the current node, do the `visitNode` step and
recurse whenever the child has a `children` key.  The top-level loop of
`get_figure` (lines 128-136) performs exactly the same per-node work
with parent index `0`, so it is this traversal applied at `0`. -/
def addChildEdges : Int → List JNode → BState → Option BState
  | _, [], st => some st
  | p, JNode.mk ci cc ch :: rest, st => do
    let st1 ← visitNode st p ci cc
    let st2 ←
      match ch with
      | some cs => addChildEdges ci cs st1
      | none => pure st1
    addChildEdges p rest st2

/-- The whole edge/color/text building pass run by `get_figure` (tree.py
lines 128-136) on a given starting state. -/
def buildAttributes (d : JData) (st : BState) : Option BState :=
  addChildEdges 0 d.nodes st

/-- The pre-order sequence of `(master_index, container)` pairs visited
by the traversal. -/
def nodeSeq : List JNode → List (Int × String)
  | [] => []
  | JNode.mk ci cc ch :: rest =>
      (ci, cc) ::
        ((match ch with | some cs => nodeSeq cs | none => []) ++ nodeSeq rest)

/-- The pre-order edge sequence emitted by the traversal below parent
`p`. -/
def emitEdges : Int → List JNode → List (Int × Int)
  | _, [] => []
  | p, JNode.mk ci _ ch :: rest =>
      (p, ci) ::
        ((match ch with | some cs => emitEdges ci cs | none => []) ++
          emitEdges p rest)

/-- The color value written for a node: `COLORS[container]`. -/
def colorVal (_ : Int) (c : String) : String :=
  (DIAGRAM_COLORS c).getD ""

/-- The text value written for a node. -/
def textVal (i : Int) (c : String) : String :=
  nodeLabel i c

/-- Apply a sequence of index-addressed writes, earlier writes first,
where the written value is `f index container`. -/
def applyWrites (f : Int → String → String) :
    List (Int × String) → List String → List String
  | [], l => l
  | w :: ws, l => applyWrites f ws (pySetD l w.1 (f w.1 w.2))

/-- The value of the last write of `ws` landing on position `k` of a
list of length `len`, if any. -/
def lastVal (f : Int → String → String) (len k : Nat) :
    List (Int × String) → Option String
  | [] => none
  | w :: ws =>
      match lastVal f len k ws with
      | some v => some v
      | none => if pyPos len w.1 = some k then some (f w.1 w.2) else none

theorem pySetD_length (l : List String) (i : Int) (v : String) :
    (pySetD l i v).length = l.length := by
  unfold pySetD
  split <;> simp

theorem applyWrites_length (f : Int → String → String)
    (ws : List (Int × String)) (l : List String) :
    (applyWrites f ws l).length = l.length := by
  induction ws generalizing l with
  | nil => rfl
  | cons w ws ih => simp [applyWrites, ih, pySetD_length]

theorem applyWrites_append (f : Int → String → String)
    (ws₁ ws₂ : List (Int × String)) (l : List String) :
    applyWrites f (ws₁ ++ ws₂) l = applyWrites f ws₂ (applyWrites f ws₁ l) := by
  induction ws₁ generalizing l with
  | nil => rfl
  | cons w ws ih => simp [applyWrites, ih]

theorem pyPos_lt (len : Nat) (i : Int) (k : Nat) (h : pyPos len i = some k) :
    k < len := by
  unfold pyPos at h
  split at h <;> simp_all <;> omega

/-- An `IndexError` on the presized arrays of length `n + 1` happens
exactly for indices above `n` or below `-(n+1)`. -/
theorem pyPos_none_iff (n : Nat) (i : Int) :
    pyPos (n + 1) i = none ↔ ((n : Int) < i ∨ i < -((n : Int) + 1)) := by
  unfold pyPos
  split <;> simp_all <;> omega

/-- A nonnegative in-range index addresses its own position. -/
theorem pyPos_pos (len : Nat) (i : Int) (h0 : 0 ≤ i) (hlt : i < len) :
    pyPos len i = some i.toNat := by
  unfold pyPos
  split <;> simp_all <;> omega

theorem set_getElem? (l : List String) (k j : Nat) (v : String) :
    (l.set j v)[k]? = if j = k ∧ j < l.length then some v else l[k]? := by
  rw [List.getElem?_set]
  split <;> split <;> simp_all
  rw [if_neg (by omega), List.getElem?_eq_none (by omega)]

theorem pySetD_getElem? (l : List String) (i : Int) (v : String) (k : Nat) :
    (pySetD l i v)[k]? =
      if pyPos l.length i = some k then some v else l[k]? := by
  unfold pySetD
  cases h : pyPos l.length i with
  | none => simp [h]
  | some j =>
    have hj := pyPos_lt _ _ _ h
    rw [set_getElem?]
    by_cases hk : j = k
    · subst hk
      simp [h, hj]
    · simp [hk, h]

/-- Position `k` of the list after a write sequence holds the last value
written there, or the original entry when no write lands on `k`. -/
theorem applyWrites_getElem? (f : Int → String → String)
    (ws : List (Int × String)) (l : List String) (k : Nat) :
    (applyWrites f ws l)[k]? =
      (lastVal f l.length k ws).elim l[k]? some := by
  induction ws generalizing l with
  | nil => simp [applyWrites, lastVal]
  | cons w ws ih =>
    rw [applyWrites, ih, pySetD_length, pySetD_getElem?]
    show _ = (lastVal f l.length k (w :: ws)).elim _ _
    rw [lastVal]
    cases hl : lastVal f l.length k ws with
    | some v => simp
    | none =>
      by_cases hp : pyPos l.length w.1 = some k <;> simp [hp]

/-- Re-applying the same write sequence changes nothing: every position
already holds its last written value. -/
theorem applyWrites_idem (f : Int → String → String)
    (ws : List (Int × String)) (l : List String) :
    applyWrites f ws (applyWrites f ws l) = applyWrites f ws l := by
  apply List.ext_getElem?
  intro k
  rw [applyWrites_getElem?, applyWrites_getElem?, applyWrites_length]
  cases lastVal f l.length k ws <;> simp

/-- No write of `ws` lands on position `k`: the entry is untouched. -/
theorem lastVal_eq_none (f : Int → String → String) (len k : Nat)
    (ws : List (Int × String)) (h : ∀ w ∈ ws, pyPos len w.1 ≠ some k) :
    lastVal f len k ws = none := by
  induction ws with
  | nil => rfl
  | cons w ws ih =>
    rw [lastVal, ih (fun w hw => h w (List.mem_cons_of_mem _ hw))]
    simp [h w (List.mem_cons_self _ _)]

/-- Inversion: the last value landing on `k` is the value of one of the
writes that land on `k`. -/
theorem lastVal_some_inv (f : Int → String → String) (len k : Nat)
    (ws : List (Int × String)) (v : String)
    (h : lastVal f len k ws = some v) :
    ∃ w ∈ ws, pyPos len w.1 = some k ∧ v = f w.1 w.2 := by
  induction ws with
  | nil => cases h
  | cons w ws ih =>
    rw [lastVal] at h
    cases hl : lastVal f len k ws with
    | some v' =>
      rw [hl] at h
      cases h
      rcases ih hl with ⟨w₁, hmem, hp, hv⟩
      exact ⟨w₁, List.mem_cons_of_mem _ hmem, hp, hv⟩
    | none =>
      rw [hl] at h
      by_cases hp : pyPos len w.1 = some k
      · rw [if_pos hp] at h
        cases h
        exact ⟨w, List.mem_cons_self _ _, hp, rfl⟩
      · rw [if_neg hp] at h
        cases h

/-- Some write of `ws` lands on position `k`: the entry afterwards was
written. -/
theorem lastVal_isSome (f : Int → String → String) (len k : Nat)
    (ws : List (Int × String))
    (h : ∃ w ∈ ws, pyPos len w.1 = some k) :
    (lastVal f len k ws).isSome := by
  induction ws with
  | nil => simp at h
  | cons w ws ih =>
    rw [lastVal]
    cases hl : lastVal f len k ws with
    | some v => simp
    | none =>
      rcases h with ⟨w₀, hmem, hp⟩
      rcases List.mem_cons.1 hmem with h₀ | h₀
      · subst h₀
        simp [hp]
      · have := ih ⟨w₀, h₀, hp⟩
        rw [hl] at this
        cases this


theorem pySet_eq_pySetD (l : List String) (i : Int) (v : String)
    (h : (pyPos l.length i).isSome) :
    pySet l i v = some (pySetD l i v) := by
  unfold pySet pySetD
  cases hp : pyPos l.length i with
  | none => rw [hp] at h; cases h
  | some k => simp

theorem visitNode_ok (st : BState) (p ci : Int) (cc : String)
    (hc : (DIAGRAM_COLORS cc).isSome)
    (hpc : (pyPos st.colors.length ci).isSome)
    (hlen : st.text.length = st.colors.length) :
    visitNode st p ci cc = some
      { edges := st.edges ++ [(p, ci)]
        colors := pySetD st.colors ci (colorVal ci cc)
        text := pySetD st.text ci (textVal ci cc) } := by
  rcases Option.isSome_iff_exists.1 hc with ⟨cv, hcv⟩
  rcases Option.isSome_iff_exists.1 hpc with ⟨k, hk⟩
  have hk' : pyPos st.text.length ci = some k := by rw [hlen]; exact hk
  simp [visitNode, hcv, pySet, hk, hk', pySetD, colorVal, textVal]

theorem visitNode_some_inv (st : BState) (p ci : Int) (cc : String)
    (st₁ : BState) (h : visitNode st p ci cc = some st₁) :
    (DIAGRAM_COLORS cc).isSome ∧ (pyPos st.colors.length ci).isSome ∧
      st₁.colors.length = st.colors.length ∧
      st₁.text.length = st.text.length ∧
      st₁.edges = st.edges ++ [(p, ci)] := by
  unfold visitNode at h
  cases hcv : DIAGRAM_COLORS cc with
  | none => rw [hcv] at h; cases h
  | some cv =>
    rw [hcv] at h
    cases hp : pyPos st.colors.length ci with
    | none => simp [pySet, hp] at h
    | some k =>
      cases hp2 : pyPos st.text.length ci with
      | none => simp [pySet, hp, hp2] at h
      | some k2 =>
        simp [pySet, hp, hp2] at h
        subst h
        simp [hcv]

theorem addCE_lengths : ∀ (l : List JNode) (p : Int) (st st' : BState),
    addChildEdges p l st = some st' →
    st'.colors.length = st.colors.length ∧
      st'.text.length = st.text.length := by
  intro l
  match l with
  | [] =>
    intro p st st' h
    simp [addChildEdges] at h
    subst h
    exact ⟨rfl, rfl⟩
  | JNode.mk ci cc (some cs) :: rest =>
    intro p st st' h
    rw [addChildEdges] at h
    simp only [Option.bind_eq_bind, Option.bind_eq_some] at h
    rcases h with ⟨st1, h1, st2, h2, h3⟩
    have v1 := visitNode_some_inv _ _ _ _ _ h1
    have l2 := addCE_lengths cs ci st1 st2 h2
    have l3 := addCE_lengths rest p st2 st' h3
    exact ⟨by omega, by omega⟩
  | JNode.mk ci cc none :: rest =>
    intro p st st' h
    rw [addChildEdges] at h
    simp only [Option.bind_eq_bind, Option.pure_def, Option.some_bind,
      Option.bind_eq_some] at h
    rcases h with ⟨st1, h1, h3⟩
    have v1 := visitNode_some_inv _ _ _ _ _ h1
    have l3 := addCE_lengths rest p st1 st' h3
    exact ⟨by omega, by omega⟩

theorem addCE_run : ∀ (l : List JNode) (p : Int) (st : BState),
    st.text.length = st.colors.length →
    (∀ w ∈ nodeSeq l, (DIAGRAM_COLORS w.2).isSome ∧
      (pyPos st.colors.length w.1).isSome) →
    addChildEdges p l st = some
      { edges := st.edges ++ emitEdges p l
        colors := applyWrites colorVal (nodeSeq l) st.colors
        text := applyWrites textVal (nodeSeq l) st.text } := by
  intro l
  match l with
  | [] =>
    intro p st hlen hok
    simp [addChildEdges, emitEdges, nodeSeq, applyWrites]
  | JNode.mk ci cc (some cs) :: rest =>
    intro p st hlen hok
    have hhead := hok (ci, cc) (by simp [nodeSeq])
    rw [addChildEdges,
      visitNode_ok st p ci cc hhead.1 hhead.2 hlen]
    set st1 : BState :=
      { edges := st.edges ++ [(p, ci)]
        colors := pySetD st.colors ci (colorVal ci cc)
        text := pySetD st.text ci (textVal ci cc) } with hst1
    have hlen1c : st1.colors.length = st.colors.length := pySetD_length _ _ _
    have hlen1 : st1.text.length = st1.colors.length := by
      simp [hst1, pySetD_length, hlen]
    have hok1 : ∀ w ∈ nodeSeq cs, (DIAGRAM_COLORS w.2).isSome ∧
        (pyPos st1.colors.length w.1).isSome := by
      intro w hw
      rw [hlen1c]
      exact hok w (by simp [nodeSeq]; right; left; exact hw)
    simp only [Option.bind_eq_bind, Option.some_bind]
    rw [addCE_run cs ci st1 hlen1 hok1]
    simp only [Option.some_bind]
    set st2 : BState :=
      { edges := st1.edges ++ emitEdges ci cs
        colors := applyWrites colorVal (nodeSeq cs) st1.colors
        text := applyWrites textVal (nodeSeq cs) st1.text } with hst2
    have hlen2c : st2.colors.length = st.colors.length := by
      simp [hst2, applyWrites_length, hlen1c]
    have hlen2 : st2.text.length = st2.colors.length := by
      simp [hst2, applyWrites_length, hlen1]
    have hok2 : ∀ w ∈ nodeSeq rest, (DIAGRAM_COLORS w.2).isSome ∧
        (pyPos st2.colors.length w.1).isSome := by
      intro w hw
      rw [hlen2c]
      exact hok w (by simp [nodeSeq]; right; right; exact hw)
    rw [addCE_run rest p st2 hlen2 hok2]
    simp only [hst2, hst1, nodeSeq, emitEdges, applyWrites, applyWrites_append]
    simp
  | JNode.mk ci cc none :: rest =>
    intro p st hlen hok
    have hhead := hok (ci, cc) (by simp [nodeSeq])
    rw [addChildEdges,
      visitNode_ok st p ci cc hhead.1 hhead.2 hlen]
    set st1 : BState :=
      { edges := st.edges ++ [(p, ci)]
        colors := pySetD st.colors ci (colorVal ci cc)
        text := pySetD st.text ci (textVal ci cc) } with hst1
    have hlen1c : st1.colors.length = st.colors.length := pySetD_length _ _ _
    have hlen1 : st1.text.length = st1.colors.length := by
      simp [hst1, pySetD_length, hlen]
    have hok1 : ∀ w ∈ nodeSeq rest, (DIAGRAM_COLORS w.2).isSome ∧
        (pyPos st1.colors.length w.1).isSome := by
      intro w hw
      rw [hlen1c]
      exact hok w (by simp [nodeSeq]; right; exact hw)
    simp only [Option.bind_eq_bind, Option.some_bind, Option.pure_def]
    rw [addCE_run rest p st1 hlen1 hok1]
    simp only [hst1, nodeSeq, emitEdges, applyWrites]
    simp

theorem addCE_some_ok : ∀ (l : List JNode) (p : Int) (st : BState),
    st.text.length = st.colors.length →
    (addChildEdges p l st).isSome →
    ∀ w ∈ nodeSeq l, (DIAGRAM_COLORS w.2).isSome ∧
      (pyPos st.colors.length w.1).isSome := by
  intro l
  match l with
  | [] =>
    intro p st _ _ w hw
    simp [nodeSeq] at hw
  | JNode.mk ci cc (some cs) :: rest =>
    intro p st hlen hs w hw
    rcases Option.isSome_iff_exists.1 hs with ⟨st', h⟩
    rw [addChildEdges] at h
    simp only [Option.bind_eq_bind, Option.bind_eq_some] at h
    rcases h with ⟨st1, h1, st2, h2, h3⟩
    have v1 := visitNode_some_inv _ _ _ _ _ h1
    have hlen1 : st1.text.length = st1.colors.length := by omega
    have l2 := addCE_lengths cs ci st1 st2 h2
    have hlen2 : st2.text.length = st2.colors.length := by omega
    simp only [nodeSeq, List.mem_cons, List.mem_append] at hw
    rcases hw with hw | hw | hw
    · subst hw
      exact ⟨v1.1, v1.2.1⟩
    · have := addCE_some_ok cs ci st1 hlen1 (by simp [h2]) w hw
      rwa [v1.2.2.1] at this
    · have := addCE_some_ok rest p st2 hlen2 (by simp [h3]) w hw
      rw [l2.1, v1.2.2.1] at this
      exact this
  | JNode.mk ci cc none :: rest =>
    intro p st hlen hs w hw
    rcases Option.isSome_iff_exists.1 hs with ⟨st', h⟩
    rw [addChildEdges] at h
    simp only [Option.bind_eq_bind, Option.pure_def, Option.some_bind,
      Option.bind_eq_some] at h
    rcases h with ⟨st1, h1, h3⟩
    have v1 := visitNode_some_inv _ _ _ _ _ h1
    have hlen1 : st1.text.length = st1.colors.length := by omega
    simp only [nodeSeq, List.mem_cons, List.nil_append, List.mem_append] at hw
    rcases hw with hw | hw
    · subst hw
      exact ⟨v1.1, v1.2.1⟩
    · have := addCE_some_ok rest p st1 hlen1 (by simp [h3]) w hw
      rwa [v1.2.2.1] at this


/-- A write landing out of range anywhere in the traversal makes the
whole run raise (`none`): the uncaught `IndexError` propagates out of
`get_figure`. -/
theorem addCE_fail (l : List JNode) (p : Int) (st : BState)
    (hlen : st.text.length = st.colors.length)
    (hbad : ∃ w ∈ nodeSeq l, pyPos st.colors.length w.1 = none) :
    addChildEdges p l st = none := by
  cases hres : addChildEdges p l st with
  | none => rfl
  | some st' =>
    rcases hbad with ⟨w, hw, hp⟩
    have := (addCE_some_ok l p st hlen (by simp [hres]) w hw).2
    rw [hp] at this
    cases this


/-- Palette values are nonempty color strings. -/
theorem DIAGRAM_COLORS_ne_empty (c v : String) (h : DIAGRAM_COLORS c = some v) :
    v ≠ "" := by
  unfold DIAGRAM_COLORS at h
  split at h <;> cases h <;> decide

/-- Node labels are never the empty string. -/
theorem nodeLabel_ne_empty (i : Int) (c : String) : nodeLabel i c ≠ "" := by
  intro h
  have hlen := congrArg String.length h
  have h1 : "(".length = 1 := rfl
  simp [nodeLabel, String.length_append, h1] at hlen

theorem emitEdges_length : ∀ (l : List JNode) (p : Int),
    (emitEdges p l).length = (nodeSeq l).length := by
  intro l
  match l with
  | [] => intro p; simp [emitEdges, nodeSeq]
  | JNode.mk ci cc (some cs) :: rest =>
    intro p
    simp [emitEdges, nodeSeq, emitEdges_length cs, emitEdges_length rest]
  | JNode.mk ci cc none :: rest =>
    intro p
    simp [emitEdges, nodeSeq, emitEdges_length rest]

theorem pyPos_toNat (len : Nat) (i : Int) (k : Nat) (h0 : 0 ≤ i)
    (h : pyPos len i = some k) : k = i.toNat := by
  unfold pyPos at h
  split at h <;> simp_all <;> omega

theorem initState_colors_length (n : Nat) :
    (initState n).colors.length = n + 1 := by
  simp [initState]

theorem initState_text_length (n : Nat) :
    (initState n).text.length = n + 1 := by
  simp [initState]

/-- The concrete input of spec Scenario A. -/
def scenarioA : JData :=
  ⟨3, [JNode.mk 1 "function" (some [JNode.mk 2 "variable" none]),
       JNode.mk 3 "require" none]⟩

/-- An input declaring `nodes_count = 2` whose two top-level nodes both
carry index 1 (a duplicated index). -/
def dupInput : JData :=
  ⟨2, [JNode.mk 1 "function" none, JNode.mk 1 "variable" none]⟩

/-- An input whose last node has a child with negative index `-1`. -/
def negInput : JData :=
  ⟨2, [JNode.mk 1 "function" none,
       JNode.mk 2 "require" (some [JNode.mk (-1) "variable" none])]⟩

/-- An input declaring `nodes_count = 2` but containing index 3. -/
def bigInput : JData :=
  ⟨2, [JNode.mk 3 "function" none]⟩

/-- C1, counterexample: the input with a duplicated index is not
rejected — the build completes (no `SchemaError` exists anywhere in the
code; the second write silently overwrites the first). -/
theorem c1_counterexample :
    (buildAttributes dupInput (initState 2)).isSome = true := by
  simp +decide [buildAttributes, addChildEdges, visitNode, pySet, pyPos,
    initState, DIAGRAM_COLORS, nodeLabel, dupInput]

/-- C1, amended: the only inputs the build rejects are those whose
traversal writes out of the Python index range of the presized arrays,
i.e. those containing an index above `nodes_count` or below
`-(nodes_count + 1)`; the failure is an uncaught `IndexError`, not a
`SchemaError`, and duplicated indices, in-range negative indices and a
mismatched `nodes_count` are accepted silently. -/
theorem c1_amended (d : JData)
    (h : ∃ w ∈ nodeSeq d.nodes,
      (d.nodes_count : Int) < w.1 ∨ w.1 < -((d.nodes_count : Int) + 1)) :
    buildAttributes d (initState d.nodes_count) = none := by
  unfold buildAttributes
  apply addCE_fail
  · rw [initState_text_length, initState_colors_length]
  · rcases h with ⟨w, hw, hout⟩
    refine ⟨w, hw, ?_⟩
    rw [initState_colors_length, pyPos_none_iff]
    exact hout

/-- Witness for `c1_amended` at the concrete `bigInput`. -/
theorem c1_amended_witness :
    buildAttributes bigInput (initState bigInput.nodes_count) = none :=
  c1_amended bigInput ⟨(3, "function"), by simp [bigInput, nodeSeq], by decide⟩

/-- C2, counterexample: building the figure a second time on the same
`Tree` instance does not leave the edges list unchanged — `get_figure`
re-appends every edge. -/
theorem c2_counterexample :
    ((buildAttributes scenarioA (initState 3)).bind
        (buildAttributes scenarioA)).map BState.edges ≠
      (buildAttributes scenarioA (initState 3)).map BState.edges := by
  simp +decide [buildAttributes, addChildEdges, visitNode, pySet, pyPos,
    initState, DIAGRAM_COLORS, nodeLabel, scenarioA]

/-- C2, amended: re-running the edge-building pass of `get_figure` on a
freshly built instance rewrites `colors` and `text` with their existing
values (they are unchanged) but appends a second copy of the edge list. -/
theorem c2_amended (d : JData) (st₁ : BState)
    (h : buildAttributes d (initState d.nodes_count) = some st₁) :
    buildAttributes d st₁ =
      some { edges := st₁.edges ++ st₁.edges
             colors := st₁.colors
             text := st₁.text } := by
  unfold buildAttributes at h ⊢
  have hlen0 : (initState d.nodes_count).text.length =
      (initState d.nodes_count).colors.length := by
    rw [initState_text_length, initState_colors_length]
  have hok := addCE_some_ok d.nodes 0 (initState d.nodes_count) hlen0
    (by simp [h])
  have hrun := addCE_run d.nodes 0 (initState d.nodes_count) hlen0 hok
  rw [h] at hrun
  have hst : st₁ =
      { edges := (initState d.nodes_count).edges ++ emitEdges 0 d.nodes
        colors := applyWrites colorVal (nodeSeq d.nodes)
          (initState d.nodes_count).colors
        text := applyWrites textVal (nodeSeq d.nodes)
          (initState d.nodes_count).text } := by
    exact Option.some.inj hrun
  have hl1 := addCE_lengths d.nodes 0 (initState d.nodes_count) st₁ h
  have hlen1 : st₁.text.length = st₁.colors.length := by omega
  have hok1 : ∀ w ∈ nodeSeq d.nodes, (DIAGRAM_COLORS w.2).isSome ∧
      (pyPos st₁.colors.length w.1).isSome := by
    intro w hw
    rw [hl1.1]
    exact hok w hw
  rw [addCE_run d.nodes 0 st₁ hlen1 hok1]
  congr 1
  rw [hst]
  simp [initState, applyWrites_idem]

/-- An index between `1` and `n` addresses its own position in the
presized arrays of length `n + 1`. -/
theorem pyPos_succ_of_bounds (n : Nat) (i : Int) (h1 : 1 ≤ i) (h2 : i ≤ n) :
    pyPos (n + 1) i = some i.toNat := by
  unfold pyPos
  split <;> simp_all <;> omega

/-- C3: on a valid input — the traversal meets the indices `1..n`
exactly once (as a permutation) and every container tag is a palette
key — the build succeeds, produces exactly `nodes_count` edges, and
leaves no gaps: every index in `[0, nodes_count]` has a nonempty color
and a nonempty text entry. -/
theorem c3_valid_build (d : JData)
    (hperm : List.Perm ((nodeSeq d.nodes).map Prod.fst)
      ((List.range' 1 d.nodes_count).map Int.ofNat))
    (hcont : ∀ w ∈ nodeSeq d.nodes, (DIAGRAM_COLORS w.2).isSome) :
    ∃ st', buildAttributes d (initState d.nodes_count) = some st' ∧
      st'.edges.length = d.nodes_count ∧
      ∀ k ≤ d.nodes_count,
        st'.colors.getD k "" ≠ "" ∧ st'.text.getD k "" ≠ "" := by
  have hidx : ∀ w ∈ nodeSeq d.nodes, 1 ≤ w.1 ∧ w.1 ≤ d.nodes_count := by
    intro w hw
    have hm : w.1 ∈ (nodeSeq d.nodes).map Prod.fst :=
      List.mem_map_of_mem _ hw
    have hm2 := hperm.mem_iff.1 hm
    simp only [List.mem_map, List.mem_range'_1] at hm2
    rcases hm2 with ⟨i, hi, heq⟩
    rw [Int.ofNat_eq_natCast] at heq
    omega
  have hlen0 : (initState d.nodes_count).text.length =
      (initState d.nodes_count).colors.length := by
    rw [initState_text_length, initState_colors_length]
  have hok : ∀ w ∈ nodeSeq d.nodes, (DIAGRAM_COLORS w.2).isSome ∧
      (pyPos (initState d.nodes_count).colors.length w.1).isSome := by
    intro w hw
    refine ⟨hcont w hw, ?_⟩
    rw [initState_colors_length,
      pyPos_succ_of_bounds _ _ (hidx w hw).1 (hidx w hw).2]
    simp
  have hrun := addCE_run d.nodes 0 (initState d.nodes_count) hlen0 hok
  refine ⟨_, hrun, ?_, ?_⟩
  · have hlen := hperm.length_eq
    simp only [List.length_map, List.length_range'] at hlen
    simp [initState, emitEdges_length, hlen]
  · intro k hk
    have hkcolor : k < (initState d.nodes_count).colors.length := by
      rw [initState_colors_length]; omega
    have hktext : k < (initState d.nodes_count).text.length := by
      rw [initState_text_length]; omega
    by_cases hk0 : k = 0
    · subst hk0
      have hnone : ∀ f, lastVal f (initState d.nodes_count).colors.length 0
          (nodeSeq d.nodes) = none := by
        intro f
        apply lastVal_eq_none
        intro w hw hp
        have h1 := hidx w hw
        have h2 := pyPos_toNat _ _ _ (by omega) hp
        omega
      constructor
      · rw [List.getD_eq_getElem?_getD, applyWrites_getElem?, hnone]
        simp +decide [initState]
      · rw [List.getD_eq_getElem?_getD, applyWrites_getElem?,
          initState_text_length, ← initState_colors_length, hnone]
        simp +decide [initState]
    · have hkmem : Int.ofNat k ∈ (nodeSeq d.nodes).map Prod.fst := by
        apply hperm.mem_iff.2
        simp only [List.mem_map, List.mem_range'_1]
        exact ⟨k, by omega, rfl⟩
      rcases List.mem_map.1 hkmem with ⟨w, hw, hwk⟩
      have hp : pyPos (initState d.nodes_count).colors.length w.1 = some k := by
        rw [initState_colors_length,
          pyPos_succ_of_bounds _ _ (hidx w hw).1 (hidx w hw).2, hwk]
        simp
      constructor
      · have hsome := lastVal_isSome colorVal
          (initState d.nodes_count).colors.length k (nodeSeq d.nodes)
          ⟨w, hw, hp⟩
        rcases Option.isSome_iff_exists.1 hsome with ⟨v, hv⟩
        rw [List.getD_eq_getElem?_getD, applyWrites_getElem?, hv]
        rcases lastVal_some_inv _ _ _ _ _ hv with ⟨w₁, hw₁, hp₁, rfl⟩
        rcases Option.isSome_iff_exists.1 (hcont w₁ hw₁) with ⟨cv, hcv⟩
        simp [colorVal, hcv]
        exact DIAGRAM_COLORS_ne_empty _ _ hcv
      · have hsome := lastVal_isSome textVal
          (initState d.nodes_count).text.length k (nodeSeq d.nodes)
          ⟨w, hw, by rw [hlen0]; exact hp⟩
        rcases Option.isSome_iff_exists.1 hsome with ⟨v, hv⟩
        rw [List.getD_eq_getElem?_getD, applyWrites_getElem?, hv]
        rcases lastVal_some_inv _ _ _ _ _ hv with ⟨w₁, hw₁, hp₁, rfl⟩
        simp [textVal]
        exact nodeLabel_ne_empty _ _

/-- The attribute state built by `get_figure` on Scenario A. -/
def builtA : BState :=
  { edges := [(0, 1), (1, 2), (0, 3)]
    colors := ["plot-line-tint", "function-tint", "variable-tint",
      "require-tint"]
    text := ["root", "(1, function)", "(2, variable)", "(3, require)"] }

/-- Witness for `c2_amended` at Scenario A. -/
theorem c2_amended_witness :
    buildAttributes scenarioA builtA =
      some { edges := builtA.edges ++ builtA.edges
             colors := builtA.colors
             text := builtA.text } :=
  c2_amended scenarioA builtA
    (by simp +decide [buildAttributes, addChildEdges, visitNode, pySet,
      pyPos, initState, DIAGRAM_COLORS, nodeLabel, scenarioA, builtA])

/-- Witness for `c3_valid_build` at Scenario A. -/
theorem c3_valid_build_witness :
    ∃ st', buildAttributes scenarioA
        (initState scenarioA.nodes_count) = some st' ∧
      st'.edges.length = scenarioA.nodes_count ∧
      ∀ k ≤ scenarioA.nodes_count,
        st'.colors.getD k "" ≠ "" ∧ st'.text.getD k "" ≠ "" :=
  c3_valid_build scenarioA
    (by simp +decide [nodeSeq, scenarioA])
    (by simp +decide [nodeSeq, scenarioA, DIAGRAM_COLORS])

/-- C4: on Scenario A the build produces exactly the edges
`(0,1), (1,2), (0,3)`, the palette colors of `function` and `require`
at indices 1 and 3, and the label `"(2, variable)"` at index 2. -/
theorem c4_scenarioA :
    (buildAttributes scenarioA (initState 3)).map BState.edges =
        some [(0, 1), (1, 2), (0, 3)] ∧
      (buildAttributes scenarioA (initState 3)).map
          (fun st => st.colors.getD 1 "") =
        some ((DIAGRAM_COLORS "function").getD "") ∧
      (buildAttributes scenarioA (initState 3)).map
          (fun st => st.colors.getD 3 "") =
        some ((DIAGRAM_COLORS "require").getD "") ∧
      (buildAttributes scenarioA (initState 3)).map
          (fun st => st.text.getD 2 "") = some "(2, variable)" := by
  refine ⟨?_, ?_, ?_, ?_⟩ <;>
    simp +decide [buildAttributes, addChildEdges, visitNode, pySet, pyPos,
      initState, DIAGRAM_COLORS, nodeLabel, scenarioA]

/-- The color used for the edge-line trace of the figure (tree.py line
184): `COLORS['plot-line']`. -/
def edgeLineColor : String :=
  (DIAGRAM_COLORS "plot-line").getD ""

/-- C9, counterexample: on the built Scenario A tree the synthetic
root's color (index 0) equals the edge-line tint — they are the same
`COLORS['plot-line']` entry, not distinct tints. -/
theorem c9_counterexample :
    (buildAttributes scenarioA (initState 3)).map
        (fun st => st.colors.getD 0 "") = some edgeLineColor := by
  simp +decide [buildAttributes, addChildEdges, visitNode, pySet, pyPos,
    initState, DIAGRAM_COLORS, nodeLabel, scenarioA, edgeLineColor]

/-- C9, amended: for every build whose traversal sees only positive
indices, the synthetic root (index 0) keeps the color set in `__init__`,
namely `COLORS['plot-line']` — exactly the tint of the edge lines. -/
theorem c9_amended (d : JData) (st' : BState)
    (h : buildAttributes d (initState d.nodes_count) = some st')
    (hpos : ∀ w ∈ nodeSeq d.nodes, 1 ≤ w.1) :
    st'.colors.getD 0 "" = edgeLineColor := by
  unfold buildAttributes at h
  have hlen0 : (initState d.nodes_count).text.length =
      (initState d.nodes_count).colors.length := by
    rw [initState_text_length, initState_colors_length]
  have hok := addCE_some_ok d.nodes 0 (initState d.nodes_count) hlen0
    (by simp [h])
  have hrun := addCE_run d.nodes 0 (initState d.nodes_count) hlen0 hok
  rw [h] at hrun
  have hst := Option.some.inj hrun
  rw [hst]
  have hnone : lastVal colorVal (initState d.nodes_count).colors.length 0
      (nodeSeq d.nodes) = none := by
    apply lastVal_eq_none
    intro w hw hp
    have h1 := hpos w hw
    have h2 := pyPos_toNat _ _ _ (by omega) hp
    omega
  simp only
  rw [List.getD_eq_getElem?_getD, applyWrites_getElem?, hnone]
  simp +decide [initState, edgeLineColor]

/-- Witness for `c9_amended` at Scenario A. -/
theorem c9_amended_witness : builtA.colors.getD 0 "" = edgeLineColor :=
  c9_amended scenarioA builtA
    (by simp +decide [buildAttributes, addChildEdges, visitNode, pySet,
      pyPos, initState, DIAGRAM_COLORS, nodeLabel, scenarioA, builtA])
    (by simp +decide [nodeSeq, scenarioA])

/-- C10: the input with a child declaring index `-1` is accepted — the
traversal completes — and Python negative indexing makes that child's
color and text land on position 2 of the presized arrays, silently
overwriting the entries of node 2. -/
theorem c10_negative_index_overwrite :
    (buildAttributes negInput (initState 2)).map
          (fun st => (st.colors.getD 2 "", st.text.getD 2 "")) =
        some ((DIAGRAM_COLORS "variable").getD "", nodeLabel (-1) "variable") ∧
      (buildAttributes negInput (initState 2)).map BState.edges =
        some [(0, 1), (0, 2), (2, -1)] := by
  constructor <;>
    simp +decide [buildAttributes, addChildEdges, visitNode, pySet, pyPos,
      initState, DIAGRAM_COLORS, nodeLabel, negInput]



/-! ## The coordinate transform of `get_figure` (tree.py lines 144-173)

The igraph layout result is an abstract position list `pos` (index `k`
holds `layout[k]`, for `k` in `range(self.data['nodes_count'] + 1)`);
coordinates are modelled as rationals. -/

/-- The `max_y = max([layout[k][1] for k in range(nodes_count)])` of
tree.py line 145. -/
def maxY (pos : List (ℚ × ℚ)) : ℚ :=
  match pos.map Prod.snd with
  | [] => 0
  | y :: ys => ys.foldl max y

/-- The `nodes_x` list before the orientation branch (tree.py line 149). -/
def vertNodesX (pos : List (ℚ × ℚ)) : List ℚ :=
  pos.map fun q => 2 * maxY pos - q.2

/-- The `nodes_y` list before the orientation branch (tree.py line 150). -/
def vertNodesY (pos : List (ℚ × ℚ)) : List ℚ :=
  pos.map fun q => q.1

/-- Lookup `positions[i]` in the dict keyed by `range(len(pos))`
(a missing key raises `KeyError`). -/
def posAt (pos : List (ℚ × ℚ)) (i : Int) : Option (ℚ × ℚ) :=
  if 0 ≤ i ∧ i < pos.length then some (pos.getD i.toNat (0, 0)) else none

/-- The edge polylines `edges_x`, `edges_y` with their `None` separators
(tree.py lines 151-157). -/
def edgeSegs (pos : List (ℚ × ℚ)) (edges : List (Int × Int)) :
    Option (List (Option ℚ) × List (Option ℚ)) :=
  edges.foldl
    (fun acc e => do
      let exy ← acc
      let p0 ← posAt pos e.1
      let p1 ← posAt pos e.2
      pure (exy.1 ++ [some (2 * maxY pos - p0.2),
              some (2 * maxY pos - p1.2), none],
            exy.2 ++ [some p0.1, some p1.1, none]))
    (some ([], []))

/-- The `lambda x: -x if x else x` of tree.py lines 172-173: `None` and
`0.0` are falsy and kept, everything else is negated. -/
def pyNegOpt (o : Option ℚ) : Option ℚ :=
  o.map fun v => if v = 0 then v else -v

/-- The node coordinates produced by the orientation branch of
`get_figure` (tree.py lines 159-173): horizontal mode swaps the axes,
vertical mode mirrors both axes. -/
def figureNodeCoords (pos : List (ℚ × ℚ)) (horizontal : Bool) :
    List ℚ × List ℚ :=
  if horizontal then (vertNodesY pos, vertNodesX pos)
  else ((vertNodesX pos).map Neg.neg, (vertNodesY pos).map Neg.neg)

/-- The edge-polyline coordinates produced by the orientation branch. -/
def figureEdgeCoords (pos : List (ℚ × ℚ)) (edges : List (Int × Int))
    (horizontal : Bool) : Option (List (Option ℚ) × List (Option ℚ)) :=
  (edgeSegs pos edges).map fun exy =>
    if horizontal then (exy.2, exy.1)
    else (exy.1.map pyNegOpt, exy.2.map pyNegOpt)

/-- C6: for every layout, the vertical-mode node coordinates are the
mirror (pointwise negation) of the raw transformed coordinates, and the
horizontal-mode node coordinates are exactly the axis swap of those
unmirrored raw coordinates. -/
theorem c6_orientation_swap (pos : List (ℚ × ℚ)) :
    ((figureNodeCoords pos false).1 = (vertNodesX pos).map (fun x => -x) ∧
      (figureNodeCoords pos false).2 = (vertNodesY pos).map (fun y => -y)) ∧
    (figureNodeCoords pos true).1 = vertNodesY pos ∧
      (figureNodeCoords pos true).2 = vertNodesX pos := by
  simp [figureNodeCoords]



/-! ## The layout solver's structural check, modelled from the spec

`get_figure` delegates the layout to the external igraph library
(tree.py lines 138-145), whose implementation is not part of this
repository.  §4.2 of the spec specifies the solver's failure behaviour;
the following models it. -/

/-- Modelled from the spec: the `LayoutError` of §4.2 (the solver
implementation, igraph, is missing from the repository).  `revisited v`
is raised when an edge reaches an already-visited node (a cycle or a
second parent), `unvisited v` when an edge starts at an unvisited node
or a node is never visited at all (unreachable node / extra root). -/
inductive LayoutError where
  | revisited (v : Int)
  | unvisited (v : Int)
deriving DecidableEq

/-- Modelled from the spec: the visited-set traversal of §4.2.  The
Builder emits edges parent-before-child, so the single pass walks the
edge list with the root `0` pre-visited: every edge must start at a
visited node and reach an unvisited one. -/
def visitPass : List (Int × Int) → List Int → Except LayoutError (List Int)
  | [], seen => .ok seen
  | (a, b) :: es, seen =>
      if b ∈ seen then .error (.revisited b)
      else if a ∈ seen then visitPass es (b :: seen)
      else .error (.unvisited a)

/-- Modelled from the spec: the full structural check of §4.2 — run the
visited pass from the root, then require every node `0..n` visited. -/
def layoutCheck (n : Nat) (edges : List (Int × Int)) :
    Except LayoutError (List Int) :=
  match visitPass edges [0] with
  | .error e => .error e
  | .ok seen =>
      match (List.range (n + 1)).find? (fun i => decide (Int.ofNat i ∉ seen)) with
      | some i => .error (.unvisited i)
      | none => .ok seen

/-- A node reachable from the root `0` along the edges. -/
inductive Reaches (edges : List (Int × Int)) : Int → Prop where
  | root : Reaches edges 0
  | step {a b : Int} : Reaches edges a → (a, b) ∈ edges → Reaches edges b

/-- A nonempty directed path along the edges. -/
inductive EPath (edges : List (Int × Int)) : Int → Int → Prop where
  | single {a b : Int} : (a, b) ∈ edges → EPath edges a b
  | cons {a b c : Int} : EPath edges a b → (b, c) ∈ edges → EPath edges a c

/-- The in-degree of a node: occurrences of edges targeting it. -/
def inDeg (edges : List (Int × Int)) (b : Int) : Nat :=
  (edges.filter fun e => decide (e.2 = b)).length

/-- The rooted-tree invariant of §3 violated in one of the three ways
named by §4.2: a cycle, a node in `0..n` unreachable from the root, or
a second root (a node besides `0` with no parent edge). -/
def TreeViolation (n : Nat) (edges : List (Int × Int)) : Prop :=
  (∃ v, EPath edges v v) ∨
    (∃ i : Nat, i ≤ n ∧ ¬ Reaches edges (i : Int)) ∨
    (∃ i : Nat, 1 ≤ i ∧ i ≤ n ∧ inDeg edges (i : Int) = 0)

theorem visitPass_suffix : ∀ (es : List (Int × Int)) (seen S : List Int),
    visitPass es seen = .ok S → seen <:+ S := by
  intro es
  induction es with
  | nil =>
    intro seen S h
    rw [visitPass] at h
    cases h
    exact List.suffix_refl _
  | cons e es ih =>
    intro seen S h
    rw [visitPass] at h
    split at h
    · cases h
    · split at h
      · exact (List.suffix_cons e.2 seen).trans (ih _ _ h)
      · cases h

theorem visitPass_reaches (E : List (Int × Int)) :
    ∀ (es : List (Int × Int)) (seen S : List Int),
    (∀ e ∈ es, e ∈ E) → (∀ x ∈ seen, Reaches E x) →
    visitPass es seen = .ok S → ∀ x ∈ S, Reaches E x := by
  intro es
  induction es with
  | nil =>
    intro seen S _ hseen h
    rw [visitPass] at h
    cases h
    exact hseen
  | cons e es ih =>
    intro seen S hsub hseen h
    rw [visitPass] at h
    split at h
    · cases h
    · split at h
      · rename_i hb ha
        refine ih (e.2 :: seen) S (fun x hx => hsub x (List.mem_cons_of_mem _ hx)) ?_ h
        intro x hx
        rcases List.mem_cons.1 hx with hx | hx
        · subst hx
          exact Reaches.step (hseen e.1 ha)
            (by have := hsub e (List.mem_cons_self _ _); simpa using this)
        · exact hseen x hx
      · cases h

/-- Every edge of a successful pass separates the final seen list: there
is a moment (a suffix of the final list) at which the source was already
seen and the target was not. -/
theorem visitPass_edge_moment : ∀ (es : List (Int × Int)) (seen S : List Int),
    visitPass es seen = .ok S →
    ∀ e ∈ es, ∃ t, t <:+ S ∧ e.1 ∈ t ∧ e.2 ∉ t := by
  intro es
  induction es with
  | nil =>
    intro seen S h e he
    cases he
  | cons e₀ es ih =>
    intro seen S h e he
    rw [visitPass] at h
    split at h
    · cases h
    · split at h
      · rename_i hb ha
        rcases List.mem_cons.1 he with he | he
        · subst he
          exact ⟨seen, (List.suffix_cons e.2 seen).trans
            (visitPass_suffix _ _ _ h), ha, hb⟩
        · exact ih _ _ h e he
      · cases h

/-- A successful pass never revisits: all targets are distinct and
disjoint from the initial seen list. -/
theorem visitPass_targets : ∀ (es : List (Int × Int)) (seen S : List Int),
    visitPass es seen = .ok S →
    (es.map Prod.snd).Nodup ∧ ∀ b ∈ es.map Prod.snd, b ∉ seen := by
  intro es
  induction es with
  | nil =>
    intro seen S h
    exact ⟨List.nodup_nil, by simp⟩
  | cons e₀ es ih =>
    intro seen S h
    rw [visitPass] at h
    split at h
    · cases h
    · split at h
      · rename_i hb ha
        rcases ih _ _ h with ⟨hnd, hdisj⟩
        constructor
        · rw [List.map_cons, List.nodup_cons]
          refine ⟨fun hmem => ?_, hnd⟩
          exact hdisj _ hmem (List.mem_cons_self _ _)
        · intro b hbmem
          rw [List.map_cons] at hbmem
          rcases List.mem_cons.1 hbmem with hb' | hb'
          · subst hb'
            exact hb
          · intro hbseen
            exact hdisj b hb' (List.mem_cons_of_mem _ hbseen)
      · cases h

/-- Node `y` was seen strictly before node `x` during the pass whose
final visited list is `S`. -/
def SeenBefore (S : List Int) (x y : Int) : Prop :=
  ∃ t, t <:+ S ∧ y ∈ t ∧ x ∉ t

/-- Along any directed path the visit order strictly decreases: the
endpoint of a path was seen strictly after its start. -/
theorem EPath_seenBefore (edges : List (Int × Int)) (S : List Int)
    (hE : ∀ e ∈ edges, SeenBefore S e.2 e.1) (u v : Int)
    (hp : EPath edges u v) : SeenBefore S v u := by
  induction hp with
  | single h => exact hE _ h
  | cons p h ih =>
    rcases ih with ⟨t2, ht2S, ha2, hb2⟩
    rcases hE _ h with ⟨t1, ht1S, hb1, hc1⟩
    rcases List.suffix_or_suffix_of_suffix ht1S ht2S with h12 | h21
    · exact absurd (h12.subset hb1) hb2
    · exact ⟨t2, ht2S, ha2, fun hc2 => hc1 (h21.subset hc2)⟩

/-- A reachable node other than the root has a parent edge. -/
theorem Reaches_inDeg_pos (edges : List (Int × Int)) (b : Int)
    (h : Reaches edges b) (hb : b ≠ 0) : 0 < inDeg edges b := by
  cases h with
  | root => exact absurd rfl hb
  | step hra hmem =>
    apply List.length_pos_of_mem
    exact List.mem_filter.2 ⟨hmem, by simp⟩

/-- Soundness of the check: a successful `layoutCheck` rules out every
violation of the rooted-tree invariant. -/
theorem layoutCheck_ok_no_violation (n : Nat) (edges : List (Int × Int))
    (S : List Int) (h : layoutCheck n edges = .ok S) :
    ¬ TreeViolation n edges := by
  unfold layoutCheck at h
  cases hp : visitPass edges [0] with
  | error e => rw [hp] at h; cases h
  | ok seen =>
    rw [hp] at h
    dsimp only at h
    cases hf : (List.range (n + 1)).find?
        (fun i => decide (Int.ofNat i ∉ seen)) with
    | some i => rw [hf] at h; cases h
    | none =>
      rw [hf] at h
      cases h
      rw [List.find?_eq_none] at hf
      have hseen : ∀ i : Nat, i ≤ n → (i : Int) ∈ S := by
        intro i hi
        have := hf i (List.mem_range.2 (by omega))
        simpa using this
      have hreach : ∀ x ∈ S, Reaches edges x := by
        apply visitPass_reaches edges edges [0] S (fun e he => he) ?_ hp
        intro x hx
        rcases List.mem_cons.1 hx with hx | hx
        · subst hx
          exact Reaches.root
        · cases hx
      intro hviol
      rcases hviol with ⟨v, hpath⟩ | ⟨i, hle, hnr⟩ | ⟨i, h1, hle, hdeg⟩
      · have hE : ∀ e ∈ edges, SeenBefore S e.2 e.1 := by
          intro e he
          rcases visitPass_edge_moment edges [0] S hp e he with
            ⟨t, htS, h1t, h2t⟩
          exact ⟨t, htS, h1t, h2t⟩
        rcases EPath_seenBefore edges S hE v v hpath with ⟨t, _, hv, hnv⟩
        exact hnv hv
      · exact hnr (hreach _ (hseen i hle))
      · have := Reaches_inDeg_pos edges (i : Int)
          (hreach _ (hseen i hle)) (by omega)
        omega

/-- Any violation of the rooted-tree invariant makes the check fail. -/
theorem layoutCheck_error_of_violation (n : Nat)
    (edges : List (Int × Int)) (hviol : TreeViolation n edges) :
    ∃ e, layoutCheck n edges = .error e := by
  cases hres : layoutCheck n edges with
  | error e => exact ⟨e, rfl⟩
  | ok S => exact absurd hviol (layoutCheck_ok_no_violation n edges S hres)



/-! ## The tidy-tree layout, modelled from the spec (§4.2)

The numeric layout itself also lives in igraph; §4.2 specifies a
two-pass tidy layout: children subtrees are placed left to right, each
shifted rightward by the least amount that keeps its left contour at
least 1 to the right of the combined right contour of the already
placed siblings at every shared depth, and every parent is centered on
the arithmetic mean of its children. -/

/-- Modelled from the spec: a rooted ordered tree, the solver's input
(§4.2); children order is the input child order. -/
inductive RTree where
  | node : List RTree → RTree

/-- Modelled from the spec: a positioned tree — every node carries its
`orderCoordinate`; its `depthCoordinate` is its level, so the per-level
lists below enumerate the nodes of one depth. -/
inductive PTree where
  | node : ℚ → List PTree → PTree

/-- The order coordinate of the subtree root. -/
def PTree.coord : PTree → ℚ
  | .node c _ => c

mutual
/-- Shift a whole positioned subtree rightward by `s`. -/
def PTree.shift (s : ℚ) : PTree → PTree
  | .node c cs => .node (c + s) (shiftF s cs)
def shiftF (s : ℚ) : List PTree → List PTree
  | [] => []
  | t :: ts => t.shift s :: shiftF s ts
end

/-- Combine two per-depth lists pointwise, keeping the tail of the
longer one. -/
def mergeWith {α : Type} (f : α → α → α) : List α → List α → List α
  | [], ys => ys
  | x :: xs, [] => x :: xs
  | x :: xs, y :: ys => f x y :: mergeWith f xs ys

mutual
/-- The right contour: the rightmost order coordinate per depth. -/
def PTree.contourR : PTree → List ℚ
  | .node c cs => c :: contourRF cs
def contourRF : List PTree → List ℚ
  | [] => []
  | t :: ts => mergeWith max t.contourR (contourRF ts)
end

mutual
/-- The left contour: the leftmost order coordinate per depth. -/
def PTree.contourL : PTree → List ℚ
  | .node c cs => c :: contourLF cs
def contourLF : List PTree → List ℚ
  | [] => []
  | t :: ts => mergeWith min t.contourL (contourLF ts)
end

mutual
/-- All order coordinates per depth, in left-to-right order. -/
def PTree.levels : PTree → List (List ℚ)
  | .node c cs => [c] :: levelsF cs
def levelsF : List PTree → List (List ℚ)
  | [] => []
  | t :: ts => mergeWith (fun a b => a ++ b) t.levels (levelsF ts)
end

/-- The minimal rightward shift that puts `sub` (a left contour) at
least 1 to the right of `comb` (the combined right contour of the
already placed siblings) at every shared depth. -/
def fitShift : List ℚ → List ℚ → ℚ
  | _, [] => 0
  | [], _ :: _ => 0
  | r :: rs, l :: ls => max (r + 1 - l) (fitShift rs ls)

/-- Place subtrees left to right (§4.2's bottom-up pass): shift each so
its left contour clears the combined right contour so far, folding the
shifted subtree's right contour into the running combined contour. -/
def placeGo (comb : List ℚ) : List PTree → List PTree
  | [] => []
  | t :: ts =>
      PTree.shift (fitShift comb t.contourL) t ::
        placeGo
          (mergeWith max comb (PTree.shift (fitShift comb t.contourL) t).contourR)
          ts

def placeForest (ts : List PTree) : List PTree :=
  placeGo [] ts

/-- The tidy centering value: the arithmetic mean of the children's
order coordinates (`0` for a leaf, spec §4.2 degenerate case). -/
def meanRoots (ps : List PTree) : ℚ :=
  if ps.isEmpty then 0 else (ps.map PTree.coord).sum / ps.length

mutual
/-- Modelled from the spec: the tidy-tree layout of §4.2 — lay out the
children, place them left to right, and center the parent on their
mean. -/
def RTree.layout : RTree → PTree
  | .node cs => PTree.node (meanRoots (placeForest (layoutF cs)))
      (placeForest (layoutF cs))
def layoutF : List RTree → List PTree
  | [] => []
  | t :: ts => t.layout :: layoutF ts
end

/-- Every parent sits on the arithmetic mean of its children. -/
inductive Centered : PTree → Prop where
  | node {c : ℚ} {cs : List PTree} :
      (∀ t ∈ cs, Centered t) →
      (cs ≠ [] → c = (cs.map PTree.coord).sum / cs.length) →
      Centered (PTree.node c cs)

/-- Consecutive coordinates of one depth are at least 1 apart. -/
def Gap1 (l : List ℚ) : Prop :=
  l.Chain' fun a b => a + 1 ≤ b

/-- Every depth of the positioned tree is 1-separated. -/
def SepLevels (t : PTree) : Prop :=
  ∀ d, Gap1 (t.levels.getD d [])

theorem mergeWith_nil {α : Type} (f : α → α → α) (xs : List α) :
    mergeWith f xs [] = xs := by
  cases xs <;> rfl

theorem mergeWith_length {α : Type} (f : α → α → α) :
    ∀ xs ys : List α, (mergeWith f xs ys).length = max xs.length ys.length := by
  intro xs
  induction xs with
  | nil => intro ys; simp [mergeWith]
  | cons x xs ih =>
    intro ys
    cases ys with
    | nil => simp [mergeWith]
    | cons y ys => simp [mergeWith, ih ys]; omega

theorem mergeWith_map_comm {α : Type} (f : α → α → α) (g : α → α)
    (hfg : ∀ x y, f (g x) (g y) = g (f x y)) :
    ∀ xs ys : List α,
      mergeWith f (xs.map g) (ys.map g) = (mergeWith f xs ys).map g := by
  intro xs
  induction xs with
  | nil => intro ys; simp [mergeWith]
  | cons x xs ih =>
    intro ys
    cases ys with
    | nil => simp [mergeWith]
    | cons y ys => simp [mergeWith, ih ys, hfg]

theorem shift_coord (s : ℚ) (t : PTree) :
    (PTree.shift s t).coord = t.coord + s := by
  cases t with
  | node c cs => rw [PTree.shift, PTree.coord, PTree.coord]

theorem shiftF_length (s : ℚ) : ∀ ts : List PTree,
    (shiftF s ts).length = ts.length := by
  intro ts
  induction ts with
  | nil => rfl
  | cons t ts ih => simp [shiftF, ih]

theorem shiftF_map_coord (s : ℚ) : ∀ ts : List PTree,
    (shiftF s ts).map PTree.coord = ts.map fun t => t.coord + s := by
  intro ts
  induction ts with
  | nil => rfl
  | cons t ts ih => simp [shiftF, ih, shift_coord]

mutual
theorem levels_shift (s : ℚ) (t : PTree) :
    (PTree.shift s t).levels = t.levels.map (List.map fun x => x + s) := by
  cases t with
  | node c cs =>
    rw [PTree.shift, PTree.levels, PTree.levels, levelsF_shift s cs]
    simp
theorem levelsF_shift (s : ℚ) (ts : List PTree) :
    levelsF (shiftF s ts) = (levelsF ts).map (List.map fun x => x + s) := by
  cases ts with
  | nil => rfl
  | cons t ts =>
    rw [shiftF, levelsF, levelsF, levels_shift s t, levelsF_shift s ts]
    exact mergeWith_map_comm _ _ (by simp) _ _
end

mutual
theorem contourR_shift (s : ℚ) (t : PTree) :
    (PTree.shift s t).contourR = t.contourR.map fun x => x + s := by
  cases t with
  | node c cs =>
    rw [PTree.shift, PTree.contourR, PTree.contourR, contourRF_shift s cs]
    simp
theorem contourRF_shift (s : ℚ) (ts : List PTree) :
    contourRF (shiftF s ts) = (contourRF ts).map fun x => x + s := by
  cases ts with
  | nil => rfl
  | cons t ts =>
    rw [shiftF, contourRF, contourRF, contourR_shift s t, contourRF_shift s ts]
    exact mergeWith_map_comm _ _ (fun x y => (max_add_add_right x y s).symm ▸ rfl) _ _
end

mutual
theorem contourL_shift (s : ℚ) (t : PTree) :
    (PTree.shift s t).contourL = t.contourL.map fun x => x + s := by
  cases t with
  | node c cs =>
    rw [PTree.shift, PTree.contourL, PTree.contourL, contourLF_shift s cs]
    simp
theorem contourLF_shift (s : ℚ) (ts : List PTree) :
    contourLF (shiftF s ts) = (contourLF ts).map fun x => x + s := by
  cases ts with
  | nil => rfl
  | cons t ts =>
    rw [shiftF, contourLF, contourLF, contourL_shift s t, contourLF_shift s ts]
    exact mergeWith_map_comm _ _ (fun x y => (min_add_add_right x y s).symm ▸ rfl) _ _
end

mutual
theorem levels_length_contourR (t : PTree) :
    t.levels.length = t.contourR.length := by
  cases t with
  | node c cs =>
    rw [PTree.levels, PTree.contourR]
    simp [levelsF_length_contourRF cs]
theorem levelsF_length_contourRF (ts : List PTree) :
    (levelsF ts).length = (contourRF ts).length := by
  cases ts with
  | nil => rfl
  | cons t ts =>
    rw [levelsF, contourRF, mergeWith_length, mergeWith_length,
      levels_length_contourR t, levelsF_length_contourRF ts]
end

mutual
theorem levels_length_contourL (t : PTree) :
    t.levels.length = t.contourL.length := by
  cases t with
  | node c cs =>
    rw [PTree.levels, PTree.contourL]
    simp [levelsF_length_contourLF cs]
theorem levelsF_length_contourLF (ts : List PTree) :
    (levelsF ts).length = (contourLF ts).length := by
  cases ts with
  | nil => rfl
  | cons t ts =>
    rw [levelsF, contourLF, mergeWith_length, mergeWith_length,
      levels_length_contourL t, levelsF_length_contourLF ts]
end

theorem mergeWith_append_getD :
    ∀ (A B : List (List ℚ)) (d : Nat),
      (mergeWith (fun a b => a ++ b) A B).getD d [] =
        A.getD d [] ++ B.getD d [] := by
  intro A
  induction A with
  | nil => intro B d; simp [mergeWith]
  | cons a A ih =>
    intro B d
    cases B with
    | nil => simp [mergeWith]
    | cons b B =>
      cases d with
      | zero => simp [mergeWith]
      | succ d =>
        rw [mergeWith, List.getD_cons_succ, List.getD_cons_succ,
          List.getD_cons_succ, ih B d]

theorem le_mergeWith_max_left :
    ∀ (xs ys : List ℚ) (d : Nat), d < xs.length →
      xs.getD d 0 ≤ (mergeWith max xs ys).getD d 0 := by
  intro xs
  induction xs with
  | nil => intro ys d h; simp at h
  | cons x xs ih =>
    intro ys d h
    cases ys with
    | nil => simp [mergeWith]
    | cons y ys =>
      cases d with
      | zero => simp [mergeWith]
      | succ d =>
        simp only [mergeWith, List.getD_cons_succ]
        exact ih ys d (by simpa using h)

theorem le_mergeWith_max_right :
    ∀ (xs ys : List ℚ) (d : Nat), d < ys.length →
      ys.getD d 0 ≤ (mergeWith max xs ys).getD d 0 := by
  intro xs
  induction xs with
  | nil => intro ys d h; simp [mergeWith]
  | cons x xs ih =>
    intro ys d h
    cases ys with
    | nil => simp at h
    | cons y ys =>
      cases d with
      | zero => simp [mergeWith]
      | succ d =>
        simp only [mergeWith, List.getD_cons_succ]
        exact ih ys d (by simpa using h)

theorem getD_mem_lt_length {x : ℚ} {L : List (List ℚ)} {d : Nat}
    (h : x ∈ L.getD d []) : d < L.length := by
  by_contra hcon
  rw [List.getD_eq_default _ _ (by omega)] at h
  cases h

mutual
theorem levels_le_contourR (t : PTree) :
    ∀ (d : Nat), ∀ x ∈ t.levels.getD d [], x ≤ t.contourR.getD d 0 := by
  cases t with
  | node c cs =>
    intro d x hx
    rw [PTree.levels] at hx
    rw [PTree.contourR]
    cases d with
    | zero =>
      simp at hx
      simp [hx]
    | succ d =>
      rw [List.getD_cons_succ] at hx ⊢
      exact levelsF_le_contourRF cs d x hx
theorem levelsF_le_contourRF (ts : List PTree) :
    ∀ (d : Nat), ∀ x ∈ (levelsF ts).getD d [], x ≤ (contourRF ts).getD d 0 := by
  cases ts with
  | nil => intro d x hx; simp [levelsF] at hx
  | cons t ts =>
    intro d x hx
    rw [levelsF, mergeWith_append_getD] at hx
    rw [contourRF]
    rcases List.mem_append.1 hx with hx | hx
    · have hd : d < t.levels.length := getD_mem_lt_length hx
      refine le_trans (levels_le_contourR t d x hx) ?_
      exact le_mergeWith_max_left _ _ d (by rw [← levels_length_contourR]; exact hd)
    · have hd : d < (levelsF ts).length := getD_mem_lt_length hx
      refine le_trans (levelsF_le_contourRF ts d x hx) ?_
      exact le_mergeWith_max_right _ _ d (by rw [← levelsF_length_contourRF]; exact hd)
end

theorem ge_mergeWith_min_left :
    ∀ (xs ys : List ℚ) (d : Nat), d < xs.length →
      (mergeWith min xs ys).getD d 0 ≤ xs.getD d 0 := by
  intro xs
  induction xs with
  | nil => intro ys d h; simp at h
  | cons x xs ih =>
    intro ys d h
    cases ys with
    | nil => simp [mergeWith]
    | cons y ys =>
      cases d with
      | zero => simp [mergeWith]
      | succ d =>
        simp only [mergeWith, List.getD_cons_succ]
        exact ih ys d (by simpa using h)

theorem ge_mergeWith_min_right :
    ∀ (xs ys : List ℚ) (d : Nat), d < ys.length →
      (mergeWith min xs ys).getD d 0 ≤ ys.getD d 0 := by
  intro xs
  induction xs with
  | nil => intro ys d h; simp [mergeWith]
  | cons x xs ih =>
    intro ys d h
    cases ys with
    | nil => simp at h
    | cons y ys =>
      cases d with
      | zero => simp [mergeWith]
      | succ d =>
        simp only [mergeWith, List.getD_cons_succ]
        exact ih ys d (by simpa using h)

mutual
theorem contourL_le_levels (t : PTree) :
    ∀ (d : Nat), ∀ x ∈ t.levels.getD d [], t.contourL.getD d 0 ≤ x := by
  cases t with
  | node c cs =>
    intro d x hx
    rw [PTree.levels] at hx
    rw [PTree.contourL]
    cases d with
    | zero =>
      simp at hx
      simp [hx]
    | succ d =>
      rw [List.getD_cons_succ] at hx ⊢
      exact contourLF_le_levelsF cs d x hx
theorem contourLF_le_levelsF (ts : List PTree) :
    ∀ (d : Nat), ∀ x ∈ (levelsF ts).getD d [], (contourLF ts).getD d 0 ≤ x := by
  cases ts with
  | nil => intro d x hx; simp [levelsF] at hx
  | cons t ts =>
    intro d x hx
    rw [levelsF, mergeWith_append_getD] at hx
    rw [contourLF]
    rcases List.mem_append.1 hx with hx | hx
    · have hd : d < t.levels.length := getD_mem_lt_length hx
      refine le_trans ?_ (contourL_le_levels t d x hx)
      exact ge_mergeWith_min_left _ _ d (by rw [← levels_length_contourL]; exact hd)
    · have hd : d < (levelsF ts).length := getD_mem_lt_length hx
      refine le_trans ?_ (contourLF_le_levelsF ts d x hx)
      exact ge_mergeWith_min_right _ _ d (by rw [← levelsF_length_contourLF]; exact hd)
end

theorem fitShift_nonneg : ∀ comb sub : List ℚ, 0 ≤ fitShift comb sub := by
  intro comb
  induction comb with
  | nil =>
    intro sub
    cases sub <;> simp [fitShift]
  | cons r rs ih =>
    intro sub
    cases sub with
    | nil => simp [fitShift]
    | cons l ls => exact le_trans (ih ls) (le_max_right _ _)

theorem fitShift_spec : ∀ (comb sub : List ℚ) (d : Nat),
    d < comb.length → d < sub.length →
    comb.getD d 0 + 1 ≤ sub.getD d 0 + fitShift comb sub := by
  intro comb
  induction comb with
  | nil => intro sub d h; simp at h
  | cons r rs ih =>
    intro sub d hc hs
    cases sub with
    | nil => simp at hs
    | cons l ls =>
      cases d with
      | zero =>
        have := le_max_left (r + 1 - l) (fitShift rs ls)
        simp [fitShift]
        linarith
      | succ d =>
        have hrec := ih ls d (by simpa using hc) (by simpa using hs)
        have := le_max_right (r + 1 - l) (fitShift rs ls)
        simp only [fitShift, List.getD_cons_succ]
        linarith

theorem Gap1_map_add (s : ℚ) (l : List ℚ) (h : Gap1 l) :
    Gap1 (l.map fun x => x + s) := by
  rw [Gap1] at h ⊢
  refine List.chain'_map_of_chain' _ (fun a b hab => ?_) h
  dsimp only at hab ⊢
  linarith

theorem Gap1_append (A B : List ℚ) (M : ℚ) (hA : Gap1 A) (hB : Gap1 B)
    (hAle : ∀ x ∈ A, x ≤ M) (hBge : ∀ y ∈ B, M + 1 ≤ y) :
    Gap1 (A ++ B) := by
  rw [Gap1, List.chain'_append]
  refine ⟨hA, hB, ?_⟩
  intro x hx y hy
  have h1 := hAle x (List.mem_of_mem_getLast? hx)
  have h2 := hBge y (List.mem_of_mem_head? hy)
  linarith

theorem Gap1_pairwise (l : List ℚ) (h : Gap1 l) :
    l.Pairwise fun a b => a + 1 ≤ b := by
  haveI : IsTrans ℚ (fun a b => a + 1 ≤ b) :=
    ⟨fun a b c hab hbc => by
      change _ + 1 ≤ _ at hab hbc ⊢
      linarith⟩
  rw [Gap1, List.chain'_iff_pairwise] at h
  exact h

theorem levels_map_getD (g : ℚ → ℚ) (L : List (List ℚ)) (d : Nat) :
    (L.map (List.map g)).getD d [] = (L.getD d []).map g := by
  rw [List.getD_eq_getElem?_getD, List.getD_eq_getElem?_getD,
    List.getElem?_map]
  cases L[d]? <;> simp

/-- The placement pass keeps every depth 1-separated and strictly to
the right of the incoming combined contour. -/
theorem placeGo_good : ∀ (ts : List PTree) (comb : List ℚ),
    (∀ t ∈ ts, SepLevels t) →
    (∀ d, Gap1 ((levelsF (placeGo comb ts)).getD d [])) ∧
    (∀ d, d < comb.length →
      ∀ x ∈ (levelsF (placeGo comb ts)).getD d [],
        comb.getD d 0 + 1 ≤ x) := by
  intro ts
  induction ts with
  | nil =>
    intro comb _
    constructor
    · intro d
      simp [placeGo, levelsF, Gap1, List.getD]
    · intro d _ x hx
      simp [placeGo, levelsF, List.getD] at hx
  | cons t ts ih =>
    intro comb hsep
    rw [placeGo]
    have hIH := ih (mergeWith max comb
        (PTree.shift (fitShift comb t.contourL) t).contourR)
      (fun u hu => hsep u (List.mem_cons_of_mem _ hu))
    have hsept : SepLevels t := hsep t (List.mem_cons_self _ _)
    have hAeq : ∀ d : Nat,
        (PTree.shift (fitShift comb t.contourL) t).levels.getD d [] =
          (t.levels.getD d []).map
            (fun x => x + fitShift comb t.contourL) := by
      intro d
      rw [levels_shift, levels_map_getD]
    have hlenA : (PTree.shift (fitShift comb t.contourL) t).levels.length =
        t.levels.length := by
      rw [levels_shift, List.length_map]
    have hcombl : (mergeWith max comb
        (PTree.shift (fitShift comb t.contourL) t).contourR).length =
        max comb.length
          (PTree.shift (fitShift comb t.contourL) t).contourR.length :=
      mergeWith_length _ _ _
    constructor
    · intro d
      rw [levelsF, mergeWith_append_getD]
      rcases hA : (PTree.shift (fitShift comb t.contourL) t).levels.getD d []
        with _ | ⟨a, A⟩
      · rw [List.nil_append]
        exact hIH.1 d
      · have hdlt : d < (PTree.shift (fitShift comb t.contourL) t).levels.length := by
          apply getD_mem_lt_length (x := a)
          rw [hA]
          exact List.mem_cons_self _ _
        have hdltR : d <
            (PTree.shift (fitShift comb t.contourL) t).contourR.length := by
          rw [← levels_length_contourR]
          exact hdlt
        apply Gap1_append _ _
          ((PTree.shift (fitShift comb t.contourL) t).contourR.getD d 0)
        · rw [← hA]
          rw [hAeq]
          exact Gap1_map_add _ _ (hsept d)
        · exact hIH.1 d
        · intro x hx
          rw [← hA] at hx
          exact levels_le_contourR _ d x hx
        · intro y hy
          have h1 := hIH.2 d (by omega) y hy
          have h2 := le_mergeWith_max_right comb
            (PTree.shift (fitShift comb t.contourL) t).contourR d hdltR
          linarith
    · intro d hd x hx
      rw [levelsF, mergeWith_append_getD] at hx
      rcases List.mem_append.1 hx with hx | hx
      · rw [hAeq] at hx
        rcases List.mem_map.1 hx with ⟨x₀, hx₀, rfl⟩
        have h1 := contourL_le_levels t d x₀ hx₀
        have hdlt : d < t.levels.length := getD_mem_lt_length hx₀
        have h2 := fitShift_spec comb t.contourL d hd
          (by rw [← levels_length_contourL]; exact hdlt)
        linarith
      · have h1 := hIH.2 d (by omega) x hx
        have h2 := le_mergeWith_max_left comb
          (PTree.shift (fitShift comb t.contourL) t).contourR d hd
        linarith

mutual
theorem layout_sep (t : RTree) : SepLevels (RTree.layout t) := by
  cases t with
  | node cs =>
    intro d
    rw [RTree.layout, PTree.levels]
    cases d with
    | zero => simp [Gap1]
    | succ d =>
      rw [List.getD_cons_succ]
      exact (placeGo_good (layoutF cs) [] (layoutF_sep cs)).1 d
theorem layoutF_sep (ts : List RTree) : ∀ p ∈ layoutF ts, SepLevels p := by
  cases ts with
  | nil => intro p hp; rw [layoutF] at hp; cases hp
  | cons t ts =>
    intro p hp
    rw [layoutF] at hp
    rcases List.mem_cons.1 hp with hp | hp
    · subst hp
      exact layout_sep t
    · exact layoutF_sep ts p hp
end

theorem sum_map_add_const (l : List ℚ) (s : ℚ) :
    (l.map fun x => x + s).sum = l.sum + l.length * s := by
  induction l with
  | nil => simp
  | cons x l ih =>
    simp [ih]
    ring

mutual
theorem Centered_shift (s : ℚ) (t : PTree) (h : Centered t) :
    Centered (PTree.shift s t) := by
  cases t with
  | node c cs =>
    cases h with
    | node hall hmean =>
      rw [PTree.shift]
      refine Centered.node (CenteredF_shift s cs hall) ?_
      intro hne
      have hcsne : cs ≠ [] := by
        intro hcon
        subst hcon
        exact hne rfl
      have hlen : (shiftF s cs).length = cs.length := shiftF_length s cs
      have hlenpos : 0 < cs.length := List.length_pos.2 hcsne
      have hn0 : ((cs.length : ℚ)) ≠ 0 := by
        exact_mod_cast Nat.pos_iff_ne_zero.1 hlenpos
      rw [shiftF_map_coord, hlen]
      have : (cs.map fun t => t.coord + s) =
          (cs.map PTree.coord).map fun x => x + s := by
        rw [List.map_map]
        rfl
      rw [this, sum_map_add_const, List.length_map, hmean hcsne]
      field_simp
      ring
theorem CenteredF_shift (s : ℚ) (ts : List PTree)
    (h : ∀ u ∈ ts, Centered u) : ∀ u ∈ shiftF s ts, Centered u := by
  cases ts with
  | nil => intro u hu; rw [shiftF] at hu; cases hu
  | cons t ts =>
    intro u hu
    rw [shiftF] at hu
    rcases List.mem_cons.1 hu with hu | hu
    · subst hu
      exact Centered_shift s t (h t (List.mem_cons_self _ _))
    · exact CenteredF_shift s ts (fun v hv => h v (List.mem_cons_of_mem _ hv)) u hu
end

theorem placeGo_centered : ∀ (ts : List PTree) (comb : List ℚ),
    (∀ u ∈ ts, Centered u) → ∀ u ∈ placeGo comb ts, Centered u := by
  intro ts
  induction ts with
  | nil => intro comb _ u hu; rw [placeGo] at hu; cases hu
  | cons t ts ih =>
    intro comb h u hu
    rw [placeGo] at hu
    rcases List.mem_cons.1 hu with hu | hu
    · subst hu
      exact Centered_shift _ t (h t (List.mem_cons_self _ _))
    · exact ih _ (fun v hv => h v (List.mem_cons_of_mem _ hv)) u hu

mutual
theorem layout_centered (t : RTree) : Centered (RTree.layout t) := by
  cases t with
  | node cs =>
    rw [RTree.layout]
    refine Centered.node
      (placeGo_centered (layoutF cs) [] (layoutF_centered cs)) ?_
    intro hne
    rw [meanRoots, if_neg (by simpa using hne)]
theorem layoutF_centered (ts : List RTree) : ∀ p ∈ layoutF ts, Centered p := by
  cases ts with
  | nil => intro p hp; rw [layoutF] at hp; cases hp
  | cons t ts =>
    intro p hp
    rw [layoutF] at hp
    rcases List.mem_cons.1 hp with hp | hp
    · subst hp
      exact layout_centered t
    · exact layoutF_centered ts p hp
end

/-- Reconstruct the rooted tree from the edge list (children in edge
order), with fuel bounding the depth. -/
def buildRTree (edges : List (Int × Int)) : Int → Nat → RTree
  | _, 0 => RTree.node []
  | v, fuel + 1 =>
      RTree.node (((edges.filter fun e => decide (e.1 = v)).map Prod.snd).map
        fun w => buildRTree edges w fuel)

/-- Modelled from the spec: the layout solver of §4.2 — the structural
check runs first and on failure no coordinates are produced; on success
the reconstructed tree is laid out by the tidy algorithm. -/
def layoutSolver (n : Nat) (edges : List (Int × Int)) :
    Except LayoutError PTree :=
  (layoutCheck n edges).map fun _ =>
    RTree.layout (buildRTree edges 0 edges.length)

/-- C5: any violation of the rooted-tree invariant — a cycle, an
unreachable node, or a second root — makes the layout stage fail with a
`LayoutError`, before any coordinates are produced. -/
theorem c5_violation_layout_error (n : Nat) (edges : List (Int × Int))
    (hviol : TreeViolation n edges) :
    ∃ e, layoutSolver n edges = Except.error e := by
  rcases layoutCheck_error_of_violation n edges hviol with ⟨e, he⟩
  refine ⟨e, ?_⟩
  rw [layoutSolver, he]
  rfl

/-- Witness for `c5_violation_layout_error`: Scenario E, a child edge
back to an ancestor (`2 → 1` closing the cycle `1 → 2 → 1`). -/
theorem c5_violation_layout_error_witness :
    ∃ e, layoutSolver 2 [(0, 1), (1, 2), (2, 1)] = Except.error e :=
  c5_violation_layout_error 2 [(0, 1), (1, 2), (2, 1)]
    (Or.inl ⟨1, @EPath.cons _ 1 2 1 (@EPath.single _ 1 2 (by simp)) (by simp)⟩)

/-- C7: in the tidy layout of any tree, every parent's order coordinate
is the arithmetic mean of its children's order coordinates. -/
theorem c7_parent_mean (t : RTree) : Centered (RTree.layout t) :=
  layout_centered t

/-- C8: in the tidy layout of any tree, any two distinct nodes at the
same depth — across subtrees as well — have order coordinates at least
1 apart. -/
theorem c8_same_depth_separation (t : RTree) (d : Nat) :
    ((RTree.layout t).levels.getD d []).Pairwise fun a b => 1 ≤ |a - b| := by
  have hp := Gap1_pairwise _ (layout_sep t d)
  refine hp.imp ?_
  intro a b hab
  rw [abs_sub_comm, abs_of_nonneg (by linarith)]
  linarith


end CodeNNVis
